import Mathlib

/-!
Verification development for `streaming_multipart.py`, a streaming
multipart/form-data decoder, as run under Python 3.

Byte strings are modelled as `List Nat` (one `Nat` per byte).  The
`BufferedReader` byte source of §4.1 (a Python standard-library object,
not part of this repository) is modelled by its interface contract:
`read n` consumes `List.take n`, `peek n` returns `List.take n` without
consuming, and `readLine` returns bytes up to and including the next
LF byte, or all remaining bytes at end of stream.

Two helpers capture Python 3 dynamic-typing facts that the source code
relies on (it was ported from Python 2):

* `pyByteInBytesTuple` — in `skipLWSPChar`, `b[0]` is an `int` while the
  tuple holds the `bytes` objects `b" "` and `b"\t"`; an `int` never
  equals a `bytes`, so the membership test is always false.
* `pyIntEqStr` — in `is_boundary_delimeter_line`, `rest[0]` is an `int`
  while `"\n"` is a `str`; the comparison is always false.

Loops written as `while True:` in the source are modelled with an
explicit bound (first argument of the `...Go` functions); lemmas below
show the bound used by the corresponding `...All` wrapper is always
sufficient, so the wrappers model the loops exactly.  Header parsing by
the standard-library `email` module does not move the stream cursor and
is not needed by any claim; only the stream consumption of
`populate_headers` is modelled.
-/

/-- `BLOCK_SIZE` from the source. -/
def BLOCK_SIZE : Nat := 4096

/-- Python 3 semantics of the test `b[0] in (b" ", b"\t")` in
`skipLWSPChar`: `b[0]` is an `int` and the tuple members are `bytes`
objects, so the membership test is always false. -/
def pyByteInBytesTuple (_ : Nat) : Bool := false

/-- Python 3 semantics of the comparison `rest[0] == "\n"` in
`is_boundary_delimeter_line`: an `int` is never equal to a `str`. -/
def pyIntEqStr (_ : Nat) (_ : String) : Bool := false

/-- `skipLWSPChar` from the source: `while len(b) > 0 and b[0] in
(b" ", b"\t"): b = b[1:]`.  Under Python 3 the loop condition never
holds (see `pyByteInBytesTuple`), so the function returns its argument. -/
def skipLWSPChar (b : List Nat) : List Nat :=
  match b with
  | [] => []
  | c :: rest => if pyByteInBytesTuple c then skipLWSPChar rest else c :: rest

/-- The boundary-derived tokens set up in `MultipartReader.__init__`
from `b = b"\r\n--" + boundary + b"--"`. -/
structure Tokens where
  nl : List Nat
  nlDashBoundary : List Nat
  dashBoundaryDash : List Nat
  dashBoundary : List Nat
  dashBoundaryNl : List Nat
deriving Repr, DecidableEq

/-- `MultipartReader.__init__`: the token slices of
`b = b"\r\n--" + boundary + b"--"` (13 10 45 45 … 45 45). -/
def mkTokens (boundary : List Nat) : Tokens :=
  let b : List Nat := [13, 10, 45, 45] ++ boundary ++ [45, 45]
  { nl := b.take 2
  , nlDashBoundary := b.take (b.length - 2)
  , dashBoundaryDash := b.drop 2
  , dashBoundary := (b.drop 2).take (b.length - 4)
  , dashBoundaryNl := [45, 45] ++ boundary ++ [13, 10] }

/-- First index at which `t` occurs as a contiguous sublist of `w`
(Python `w.find(t)`; `none` for `-1`). -/
def findSub (t : List Nat) : List Nat → Option Nat
  | [] => if t.isPrefixOf [] then some 0 else none
  | c :: w2 =>
      if t.isPrefixOf (c :: w2) then some 0
      else (findSub t w2).map (· + 1)

/-- `MultipartReader.peek_buffer_is_empty_part` from the source. -/
def peekBufferIsEmptyPart (tk : Tokens) (peek : List Nat) : Bool :=
  if tk.dashBoundaryDash.isPrefixOf peek then
    let rest := skipLWSPChar (peek.drop tk.dashBoundaryDash.length)
    tk.nl.isPrefixOf rest || rest.length = 0
  else if ¬ tk.dashBoundary.isPrefixOf peek then false
  else
    let rest := skipLWSPChar (peek.drop tk.dashBoundary.length)
    tk.nl.isPrefixOf rest

/-- `MultipartReader.is_final_boundary` from the source: only the
`startswith(self.dash_boundary_dash)` test is live (the rest of the
function is commented out). -/
def isFinalBoundary (tk : Tokens) (line : List Nat) : Bool :=
  tk.dashBoundaryDash.isPrefixOf line

/-- `MultipartReader.is_boundary_delimeter_line` from the source.
Returns the boolean result together with the (possibly updated) tokens,
since the function mutates `self.nl` / `self.nl_dash_boundary` when its
newline-shrink guard fires.  Under Python 3 the guard compares an `int`
with a `str` (see `pyIntEqStr`) and never fires. -/
def isBoundaryDelimeterLine (tk : Tokens) (partsRead : Nat) (line : List Nat) :
    Bool × Tokens :=
  if tk.dashBoundary.isPrefixOf line then
    let rest := skipLWSPChar (line.drop tk.dashBoundary.length)
    let tk2 :=
      if partsRead = 0 ∧ rest.length = 1 ∧ pyIntEqStr (rest.headD 0) "\n" then
        { tk with nl := tk.nl.drop 1, nlDashBoundary := tk.nlDashBoundary.drop 1 }
      else tk
    (decide (rest = tk2.nl), tk2)
  else (false, tk)

/-- The mutable state of one `Part` together with the byte source it
reads from: `buf` is the residual buffer (`p.buf`), `stream` the
remaining bytes of the byte source, `bytesRead` the counter
`p.bytes_read`, `closed` the flag `p.closed`. -/
structure PS where
  buf : List Nat
  stream : List Nat
  bytesRead : Nat
  closed : Bool
deriving Repr, DecidableEq

/-- A fresh part as constructed by `Part.__init__` (empty buffer, zero
counter, not closed), viewing byte source `s`. -/
def freshPart (s : List Nat) : PS := ⟨[], s, 0, false⟩

/-- Combined measure used to bound the body-reading loops. -/
def PS.measure (st : PS) : Nat := st.buf.length + st.stream.length

/-- The number of bytes `_PartReader.read` moves from the byte source
into `p.buf` on the scan path: `idx` when the boundary token is found in
the peeked window at `idx`; the safety margin `len(peek) - len(boundary)`
when not found and positive; all of `peek` in the `idx == -1 and
safe_count == 0` branch; nothing otherwise. -/
def scanMove (tk : Tokens) (s : List Nat) : Nat :=
  let peek := s.take BLOCK_SIZE
  let t := tk.dashBoundary
  match findSub t peek with
  | some idx => idx
  | none =>
      if t.length < peek.length then peek.length - t.length
      else if peek.length = t.length then peek.length
      else 0

/-- `_PartReader.read(d)` from the source.  The first branch returns
`p.buf.read(d)` directly, so the `finally` clause adds `len("") = 0` to
`p.bytes_read` there (the local `n` is never assigned on that path). -/
def partReaderRead (tk : Tokens) (d : Nat) (st : PS) : List Nat × PS :=
  if d ≤ st.buf.length then
    (st.buf.take d, { st with buf := st.buf.drop d })
  else if st.bytesRead = 0 ∧ peekBufferIsEmptyPart tk (st.stream.take BLOCK_SIZE) then
    ([], st)
  else
    let k := scanMove tk st.stream
    let buf1 := st.buf ++ st.stream.take k
    let n := buf1.take d
    (n, { buf := buf1.drop d
        , stream := st.stream.drop k
        , bytesRead := st.bytesRead + n.length
        , closed := st.closed })

/-- Error kinds of §7: `usage` is the `IOError("Part already closed")`
raised by `Part.read`; `malformed` is the `Exception` raised by
`next_part` on an unexpected line. -/
inductive Err where
  | usage
  | malformed
deriving Repr, DecidableEq

/-- The `while True` loop of `Part.read()` with no length: repeatedly
read `BLOCK_SIZE`-byte chunks via `_PartReader.read` until an empty
chunk, returning the concatenation.  Bounded variant; see
`drainGo_fuel_sufficient`. -/
def drainGo (tk : Tokens) : Nat → PS → List Nat × PS
  | 0, st => ([], st)
  | f + 1, st =>
      let r1 := partReaderRead tk BLOCK_SIZE st
      if r1.1 = [] then ([], r1.2)
      else
        let r2 := drainGo tk f r1.2
        (r1.1 ++ r2.1, r2.2)

/-- `Part.read()` with no length (drain to end of part), modulo the
`closed` check done by `Part.read` itself. -/
def drainAll (tk : Tokens) (st : PS) : List Nat × PS :=
  drainGo tk (st.measure + 1) st

/-- `Part.read` from the source: raises the usage error when the part
is closed, otherwise delegates to `_PartReader.read` (given a length)
or drains the body (no length). -/
def Part.read (tk : Tokens) (st : PS) (d : Option Nat) : Except Err (List Nat × PS) :=
  if st.closed then .error .usage
  else
    match d with
    | Option.some n => .ok (partReaderRead tk n st)
    | Option.none => .ok (drainAll tk st)

/-- The `while True` loop of `Part.close`: repeatedly `self.read(BLOCK_SIZE)`
(the closed-checking `Part.read`, not `_PartReader.read`) until an empty
chunk, then set `closed`.  Bounded variant; the bound used by
`Part.close` is sufficient (`closeGo_fuel_sufficient`). -/
def closeGo (tk : Tokens) : Nat → PS → Except Err PS
  | 0, st => .ok st
  | f + 1, st =>
      match Part.read tk st (some BLOCK_SIZE) with
      | .error e => .error e
      | .ok (chunk, st1) =>
          if chunk = [] then .ok { st1 with closed := true }
          else closeGo tk f st1

/-- `Part.close` from the source. -/
def Part.close (tk : Tokens) (st : PS) : Except Err PS :=
  closeGo tk (st.measure + 1) st

/-- Caller pattern of §8's chunk-size-independence property: repeated
`part.read(1)` calls until an empty chunk, concatenating the results.
Bounded variant; the bound used by `onesAll` is sufficient. -/
def onesGo (tk : Tokens) : Nat → PS → Except Err (List Nat × PS)
  | 0, st => .ok ([], st)
  | f + 1, st =>
      match Part.read tk st (some 1) with
      | .error e => .error e
      | .ok (chunk, st1) =>
          if chunk = [] then .ok ([], st1)
          else
            match onesGo tk f st1 with
            | .error e => .error e
            | .ok (rest, st2) => .ok (chunk ++ rest, st2)

/-- Reading a part's whole body in 1-byte `read(1)` calls. -/
def onesAll (tk : Tokens) (st : PS) : Except Err (List Nat × PS) :=
  onesGo tk (st.measure + 1) st

/-- `readline()` of the byte source: bytes up to and including the next
LF, or all remaining bytes at end of stream; returns the line and the
rest of the stream. -/
def readLine : List Nat → List Nat × List Nat
  | [] => ([], [])
  | c :: rest =>
      if c = 10 then ([c], rest)
      else
        let r := readLine rest
        (c :: r.1, r.2)

/-- The `while True` loop of `Part.populate_headers`: read lines until a
blank line (`b"\r\n"`, `b"\n"`) or end of stream (`b""`), collecting the
header lines.  Bounded variant; `populateHeaders` supplies a sufficient
bound. -/
def headersGo : Nat → List Nat → List (List Nat) × List Nat
  | 0, s => ([], s)
  | f + 1, s =>
      let r := readLine s
      if r.1 = [13, 10] ∨ r.1 = [10] ∨ r.1 = [] then ([], r.2)
      else
        let r2 := headersGo f r.2
        (r.1 :: r2.1, r2.2)

/-- `Part.populate_headers` from the source, restricted to its effect on
the byte source (the parsing of the collected lines by the standard
`email` module does not touch the stream). -/
def populateHeaders (s : List Nat) : List (List Nat) × List Nat :=
  headersGo (s.length + 1) s

/-- The per-part fields of a `Part` as owned by the reader (the shared
byte source lives in `MRState.stream`). -/
structure PSub where
  buf : List Nat
  bytesRead : Nat
  closed : Bool
deriving Repr, DecidableEq

/-- View a part's fields together with the reader's stream as a `PS`. -/
def PSub.toPS (p : PSub) (s : List Nat) : PS := ⟨p.buf, s, p.bytesRead, p.closed⟩

/-- Project the part-owned fields back out of a `PS`. -/
def PS.toSub (st : PS) : PSub := ⟨st.buf, st.bytesRead, st.closed⟩

/-- `MultipartReader` state: tokens, remaining stream, `parts_read`,
and `current_part`. -/
structure MRState where
  tk : Tokens
  stream : List Nat
  partsRead : Nat
  current : Option PSub
deriving Repr, DecidableEq

/-- `MultipartReader(stream, boundary)`. -/
def mkReader (s : List Nat) (boundary : List Nat) : MRState :=
  { tk := mkTokens boundary, stream := s, partsRead := 0, current := none }

/-- Outcome of `next_part()`: a new part (state holds it as current), the
terminal indicator `None`, a raised error, or loop-bound exhaustion
(the modelled `while True` loop did not finish within the bound). -/
inductive NPRes where
  | part (m : MRState)
  | terminal (m : MRState)
  | err (e : Err)
  | fuel
deriving Repr, DecidableEq

/-- The `while True` loop of `MultipartReader.next_part`, with the
loop-local `expect_new_part` flag as a parameter and an explicit loop
bound (the source loop need not terminate, see the C10 theorem). -/
def nextPartLoop : Nat → Bool → MRState → NPRes
  | 0, _, _ => .fuel
  | f + 1, expect, m =>
      let rl := readLine m.stream
      let m1 : MRState := { m with stream := rl.2 }
      if (rl.2.take 1).length = 0 ∧ isFinalBoundary m1.tk rl.1 then .terminal m1
      else
        let bd := isBoundaryDelimeterLine m1.tk m1.partsRead rl.1
        let m2 : MRState := { m1 with tk := bd.2 }
        if bd.1 then
          let ph := populateHeaders m2.stream
          .part { m2 with partsRead := m2.partsRead + 1,
                          stream := ph.2,
                          current := some ⟨[], 0, false⟩ }
        else if isFinalBoundary m2.tk rl.1 then .terminal m2
        else if expect then .err .malformed
        else if m2.partsRead = 0 then nextPartLoop f expect m2
        else if rl.1 = m2.tk.nl then nextPartLoop f true m2
        else .err .malformed

/-- `MultipartReader.next_part` from the source: close the current part
first if there is one (errors from that `close` propagate), then run the
line loop.  The current part is not cleared when the terminal indicator
is returned. -/
def nextPart (fl : Nat) (m : MRState) : NPRes :=
  match m.current with
  | none => nextPartLoop fl false m
  | some p =>
      match Part.close m.tk (p.toPS m.stream) with
      | .error e => .err e
      | .ok ps => nextPartLoop fl false { m with stream := ps.stream, current := some ps.toSub }

/-! ### Basic facts about the embedded helpers -/

/-- Under Python 3 `skipLWSPChar` strips nothing. -/
theorem skipLWSPChar_eq_self (b : List Nat) : skipLWSPChar b = b := by
  cases b <;> simp [skipLWSPChar, pyByteInBytesTuple]

theorem mkTokens_nl (b : List Nat) : (mkTokens b).nl = [13, 10] := rfl

theorem mkTokens_dashBoundaryDash (b : List Nat) :
    (mkTokens b).dashBoundaryDash = [45, 45] ++ b ++ [45, 45] := by
  simp [mkTokens]

theorem mkTokens_dashBoundary (b : List Nat) :
    (mkTokens b).dashBoundary = [45, 45] ++ b := by
  simp [mkTokens]

/-! ### Concrete scenario of spec §8 (boundary `XYZ`) -/

/-- The boundary token `XYZ` of the §8 scenario. -/
def bXYZ : List Nat := [88, 89, 90]

/-- Tokens for boundary `XYZ`. -/
def tkXYZ : Tokens := mkTokens bXYZ

/-- The §8 scenario stream, first part only:
`--XYZ\r\nA: b\r\n\r\nhello\r\n--XYZ--`. -/
def sScenario : List Nat :=
  [45, 45, 88, 89, 90, 13, 10] ++ [65, 58, 32, 98, 13, 10] ++ [13, 10] ++
  [104, 101, 108, 108, 111] ++ [13, 10] ++ [45, 45, 88, 89, 90, 45, 45]

/-- Reader state after the first `next_part()` on `sScenario`: cursor at
the body `hello\r\n--XYZ--`, one part read, a fresh current part. -/
def mAfterPart1 : MRState :=
  { tk := tkXYZ
  , stream := [104, 101, 108, 108, 111, 13, 10, 45, 45, 88, 89, 90, 45, 45]
  , partsRead := 1
  , current := some ⟨[], 0, false⟩ }

/-- Reader state after the second `next_part()` on `sScenario`: the
final boundary has been observed, but `current_part` still holds the
(closed) first part. -/
def mAfterTerminal : MRState :=
  { tk := tkXYZ
  , stream := []
  , partsRead := 1
  , current := some ⟨[], 7, true⟩ }

/-- C1: the round-trip property fails on the code.  Framing the single
payload `hello` with boundary `XYZ` per §6 and decoding via
`next_part` / `read()` does not give back `hello`: the part body comes
back as `hello\r\n` (bytes 104 101 108 108 111 13 10) — the CRLF that
belongs to the following delimiter line is consumed into the body,
because `_PartReader.read` searches the peek window for `--XYZ` without
the preceding newline.  So the decoded body is not byte-identical to
the framed payload. -/
theorem roundTrip_body_has_trailing_crlf :
    nextPart 32 (mkReader sScenario bXYZ) = .part mAfterPart1 ∧
    Part.read tkXYZ (PSub.toPS ⟨[], 0, false⟩ mAfterPart1.stream) none =
      .ok ([104, 101, 108, 108, 111, 13, 10],
           ⟨[], [45, 45, 88, 89, 90, 45, 45], 7, false⟩) ∧
    [104, 101, 108, 108, 111, 13, 10] ≠ [104, 101, 108, 108, 111] :=
  ⟨rfl, rfl, by decide⟩

/-- C2: the exactly-once-terminal property fails on the code.  On the
§8 stream, the second `next_part()` returns the terminal indicator, but
the third raises: `current_part` is still the first (closed) part, so
`next_part` calls its `close()`, whose first `self.read(BLOCK_SIZE)`
raises `IOError("Part already closed")` instead of repeating the
terminal indicator. -/
theorem nextPart_after_terminal_raises :
    nextPart 32 mAfterPart1 = .terminal mAfterTerminal ∧
    nextPart 32 mAfterTerminal = .err .usage :=
  ⟨rfl, rfl⟩

/-- Byte source for the close-twice counterexample: `hi\r\n--XYZ--`. -/
def sCloseTwice : List Nat := [104, 105, 13, 10] ++ [45, 45, 88, 89, 90, 45, 45]

/-- C3: `Part.close` is not idempotent.  Closing a part succeeds once
(draining `hi\r\n` and marking it closed), but a second `close()` raises
the usage error: `close` loops on `self.read(BLOCK_SIZE)` and
`Part.read` raises `IOError("Part already closed")` as soon as `closed`
is set. -/
theorem close_twice_raises :
    Part.close tkXYZ (freshPart sCloseTwice) =
      .ok ⟨[], [45, 45, 88, 89, 90, 45, 45], 4, true⟩ ∧
    Part.close tkXYZ (⟨[], [45, 45, 88, 89, 90, 45, 45], 4, true⟩ : PS) =
      .error .usage :=
  ⟨rfl, rfl⟩

/-- C4: `Part.read` raises the usage error exactly when the part is
already closed; on a part that is not closed it never raises (for any
length argument, including none). -/
theorem read_usage_error_iff_closed (tk : Tokens) (st : PS) (d : Option Nat) :
    (Part.read tk st d = .error .usage ↔ st.closed = true) ∧
    (Part.read tk st d).isOk = !st.closed := by
  constructor
  · constructor
    · intro h
      by_contra hc
      simp only [Bool.not_eq_true] at hc
      cases d <;> simp [Part.read, hc] at h
    · intro h
      simp [Part.read, h]
  · cases hc : st.closed <;> cases d <;>
      simp [Part.read, hc, Except.isOk, Except.toBool]

/-- An LF-terminated delimiter line `--XYZ\n` (no carriage return). -/
def lfDelimiterLine : List Nat := [45, 45, 88, 89, 90, 10]

/-- C5: the newline-convention adaptation never happens in the code.
On the very first delimiter line of an LF-only stream (`--XYZ\n`,
`parts_read == 0`), `is_boundary_delimeter_line` neither shrinks the
newline convention nor recognizes the line: the shrink guard compares
the `int` `rest[0]` with the `str` `"\n"`, which is always false in
Python 3, so the tokens are returned unchanged and the line is rejected
(`rest == self.nl` compares `b"\n"` with `b"\r\n"`).  More generally,
no call of `is_boundary_delimeter_line` ever changes the tokens. -/
theorem newline_shrink_never_fires :
    isBoundaryDelimeterLine tkXYZ 0 lfDelimiterLine = (false, tkXYZ) ∧
    ∀ (tk : Tokens) (partsRead : Nat) (line : List Nat),
      (isBoundaryDelimeterLine tk partsRead line).2 = tk := by
  refine ⟨by decide, ?_⟩
  intro tk partsRead line
  by_cases h : tk.dashBoundary.isPrefixOf line <;>
    simp [isBoundaryDelimeterLine, h, pyIntEqStr]

/-- Byte source for the read-counter counterexample: `abcd\r\n--XYZ--`. -/
def sCounter : List Nat := [97, 98, 99, 100, 13, 10] ++ [45, 45, 88, 89, 90, 45, 45]

/-- C9: the read-counter invariant fails on the code.  Two `read(2)`
calls on a part with body `abcd` return `ab` and then `cd` (4 bytes in
total), but `bytes_read` ends at 2: the second call is served entirely
from the residual buffer by `return p.buf.read(d)`, a path on which the
`finally` clause adds `len("") = 0` because the local `n` was never
assigned. -/
theorem bytesRead_misses_buffer_served_reads :
    Part.read tkXYZ (freshPart sCounter) (some 2) =
      .ok ([97, 98], ⟨[99, 100, 13, 10], [45, 45, 88, 89, 90, 45, 45], 2, false⟩) ∧
    Part.read tkXYZ (⟨[99, 100, 13, 10], [45, 45, 88, 89, 90, 45, 45], 2, false⟩ : PS) (some 2) =
      .ok ([99, 100], ⟨[13, 10], [45, 45, 88, 89, 90, 45, 45], 2, false⟩) ∧
    (2 : Nat) ≠ 4 :=
  ⟨rfl, rfl, by decide⟩

/-- C10: forward progress of `next_part` fails on the code.  On a
stream with no delimiter line that has already ended — the empty stream
is the simplest case — `next_part` never returns: `readline` keeps
returning `b""`, which is neither a delimiter nor a final boundary, and
with `parts_read == 0` the loop just `continue`s forever.  In the
bounded model: for every loop bound the call exhausts the bound. -/
theorem nextPart_spins_at_eof_before_first_delimiter (fl : Nat) (b : List Nat) :
    nextPart fl (mkReader [] b) = .fuel := by
  show nextPartLoop fl false (mkReader [] b) = .fuel
  induction fl with
  | zero => rfl
  | succ f ih =>
      have hfb : isFinalBoundary (mkTokens b) ([] : List Nat) = false := by
        simp [isFinalBoundary, List.isPrefixOf_iff_prefix, List.prefix_nil,
          mkTokens_dashBoundaryDash]
      have hbd : isBoundaryDelimeterLine (mkTokens b) 0 ([] : List Nat) =
          (false, mkTokens b) := by
        simp [isBoundaryDelimeterLine, List.isPrefixOf_iff_prefix, List.prefix_nil,
          mkTokens_dashBoundary]
      simp only [nextPartLoop, readLine, List.take_nil, List.length_nil,
        mkReader, and_false, if_false, Bool.false_eq_true, ite_false, if_true, and_true]
      simpa [hfb, hbd, mkReader] using ih

/-! ### The boundary search and the safety-margin rule (C6) -/

/-- If `findSub` finds `t` at index `i`, then `t` occurs there and at no
earlier index. -/
theorem findSub_some {t w : List Nat} {i : Nat} (h : findSub t w = some i) :
    t <+: w.drop i ∧ ∀ j, j < i → ¬ t <+: w.drop j := by
  induction w generalizing i with
  | nil =>
      by_cases hp : t.isPrefixOf ([] : List Nat)
      · simp only [findSub, hp, if_true, Option.some.injEq] at h
        subst h
        exact ⟨List.isPrefixOf_iff_prefix.mp hp, by omega⟩
      · simp [findSub, hp] at h
  | cons c w2 ih =>
      by_cases hp : t.isPrefixOf (c :: w2)
      · simp only [findSub, hp, if_true, Option.some.injEq] at h
        subst h
        exact ⟨List.isPrefixOf_iff_prefix.mp hp, by omega⟩
      · simp only [findSub, hp, if_false, Bool.false_eq_true, ite_false,
          Option.map_eq_some'] at h
        obtain ⟨i2, hi2, rfl⟩ := h
        obtain ⟨hocc, hmin⟩ := ih hi2
        refine ⟨by simpa [List.drop_succ_cons] using hocc, ?_⟩
        intro j hj
        cases j with
        | zero =>
            simpa [List.isPrefixOf_iff_prefix] using hp
        | succ j2 =>
            simpa [List.drop_succ_cons] using hmin j2 (by omega)

/-- A found index is inside the searched window. -/
theorem findSub_le_length {t w : List Nat} {i : Nat} (h : findSub t w = some i) :
    i ≤ w.length := by
  induction w generalizing i with
  | nil =>
      by_cases hp : t.isPrefixOf ([] : List Nat)
      · simp only [findSub, hp, if_true, Option.some.injEq] at h
        omega
      · simp [findSub, hp] at h
  | cons c w2 ih =>
      by_cases hp : t.isPrefixOf (c :: w2)
      · simp only [findSub, hp, if_true, Option.some.injEq] at h
        simp [← h]
      · simp only [findSub, hp, if_false, Bool.false_eq_true, ite_false,
          Option.map_eq_some'] at h
        obtain ⟨i2, hi2, rfl⟩ := h
        have := ih hi2
        simp only [List.length_cons]
        omega

/-- If `findSub` does not find `t`, it occurs at no index of `w`. -/
theorem findSub_none {t w : List Nat} (h : findSub t w = none) :
    ∀ j, ¬ t <+: w.drop j := by
  induction w with
  | nil =>
      intro j
      by_cases hp : t.isPrefixOf ([] : List Nat)
      · simp [findSub, hp] at h
      · simpa [List.isPrefixOf_iff_prefix, List.drop_nil] using hp
  | cons c w2 ih =>
      by_cases hp : t.isPrefixOf (c :: w2)
      · simp [findSub, hp] at h
      · simp only [findSub, hp, if_false, Bool.false_eq_true, ite_false,
          Option.map_eq_none'] at h
        intro j
        cases j with
        | zero => simpa [List.isPrefixOf_iff_prefix] using hp
        | succ j2 => simpa [List.drop_succ_cons] using ih h j2

/-- A prefix of `l` that fits inside `l.take m` is a prefix of `l.take m`. -/
theorem prefix_take_of_prefix {t l : List Nat} {m : Nat}
    (h : t <+: l) (hm : t.length ≤ m) : t <+: l.take m := by
  obtain ⟨u, rfl⟩ := h
  rw [List.take_append_eq_append_take, List.take_of_length_le hm]
  exact List.prefix_append t _

/-- `scanMove` on the found branch. -/
theorem scanMove_of_found {tk : Tokens} {s : List Nat} {i : Nat}
    (h : findSub tk.dashBoundary (s.take BLOCK_SIZE) = some i) :
    scanMove tk s = i := by
  simp [scanMove, h]

/-- `scanMove` on the not-found branch with a window longer than the
token. -/
theorem scanMove_of_not_found {tk : Tokens} {s : List Nat}
    (h : findSub tk.dashBoundary (s.take BLOCK_SIZE) = none)
    (hlen : tk.dashBoundary.length < (s.take BLOCK_SIZE).length) :
    scanMove tk s = (s.take BLOCK_SIZE).length - tk.dashBoundary.length := by
  simp only [scanMove, h]
  rw [if_pos hlen]

/-- C6: the safety-margin consumption rule of `_PartReader.read`.  On a
body read that scans the stream, the number of bytes moved from the
byte source into the residual buffer is `scanMove`: (1) exactly `idx`
when the delimiter token is found at offset `idx` of the peeked window;
(2) exactly `len(window) - len(token)` when it is not found and the
window is longer than the token; and (3) in both of those cases no
consumed byte position starts an occurrence of the delimiter token in
the remaining stream, so no byte of a real boundary marker is consumed
into the buffer. -/
theorem scanMove_consumes_exactly_and_safely (tk : Tokens) (s : List Nat) :
    (∀ i, findSub tk.dashBoundary (s.take BLOCK_SIZE) = some i → scanMove tk s = i)
    ∧ (findSub tk.dashBoundary (s.take BLOCK_SIZE) = none →
        tk.dashBoundary.length < (s.take BLOCK_SIZE).length →
        scanMove tk s = (s.take BLOCK_SIZE).length - tk.dashBoundary.length)
    ∧ (((∃ i, findSub tk.dashBoundary (s.take BLOCK_SIZE) = some i) ∨
         (findSub tk.dashBoundary (s.take BLOCK_SIZE) = none ∧
          tk.dashBoundary.length < (s.take BLOCK_SIZE).length)) →
        ∀ q, q < scanMove tk s → ¬ tk.dashBoundary <+: s.drop q) := by
  refine ⟨fun i h => scanMove_of_found h, fun h hlen => scanMove_of_not_found h hlen, ?_⟩
  intro hcase q hq hpref
  have hwB : (s.take BLOCK_SIZE).length ≤ BLOCK_SIZE := by
    simp [List.length_take]
  have hdropq : (s.take BLOCK_SIZE).drop q = (s.drop q).take (BLOCK_SIZE - q) :=
    List.drop_take BLOCK_SIZE q s
  rcases hcase with ⟨i, hfind⟩ | ⟨hfind, hlen⟩
  · rw [scanMove_of_found hfind] at hq
    obtain ⟨hocc, hmin⟩ := findSub_some hfind
    have hfit : i + tk.dashBoundary.length ≤ (s.take BLOCK_SIZE).length := by
      have h1 := hocc.length_le
      rw [List.length_drop] at h1
      have h2 := findSub_le_length hfind
      omega
    have hm : tk.dashBoundary.length ≤ BLOCK_SIZE - q := by omega
    have htTake : tk.dashBoundary <+: (s.take BLOCK_SIZE).drop q := by
      rw [hdropq]
      exact prefix_take_of_prefix hpref hm
    exact hmin q hq htTake
  · rw [scanMove_of_not_found hfind hlen] at hq
    have htTake : tk.dashBoundary <+: (s.take BLOCK_SIZE).drop q := by
      rw [hdropq]
      exact prefix_take_of_prefix hpref (by omega)
    exact findSub_none hfind q htTake

/-- Witness for C6 at a concrete input: on the stream `abcd\r\n--XYZ--`
with boundary `XYZ`, the token is found at offset 6, exactly 6 bytes are
consumed, and no consumed position (for instance 3) starts a boundary
occurrence. -/
theorem scanMove_consumes_exactly_and_safely_witness :
    scanMove tkXYZ sCounter = 6 ∧ ¬ tkXYZ.dashBoundary <+: sCounter.drop 3 :=
  ⟨(scanMove_consumes_exactly_and_safely tkXYZ sCounter).1 6 (by decide),
   (scanMove_consumes_exactly_and_safely tkXYZ sCounter).2.2
     (Or.inl ⟨6, by decide⟩) 3 (by decide)⟩

/-! ### Empty-body parts (C7) -/

/-- C7: a part whose header block is immediately followed by a
delimiter line (plain or final, or a final boundary that ends the
stream) has an empty body: with zero bytes read so far, `read()`
returns no bytes and leaves the byte source exactly where it was
(nothing is consumed beyond what `peek` buffered). -/
theorem emptyBody_read_returns_nothing (b s r : List Nat)
    (hb : b.length + 6 ≤ BLOCK_SIZE)
    (hs : s = (mkTokens b).dashBoundary ++ (mkTokens b).nl ++ r
        ∨ s = (mkTokens b).dashBoundaryDash ++ (mkTokens b).nl ++ r
        ∨ s = (mkTokens b).dashBoundaryDash) :
    Part.read (mkTokens b) (freshPart s) none = .ok ([], freshPart s) := by
  have hdb : (mkTokens b).dashBoundary = [45, 45] ++ b := mkTokens_dashBoundary b
  have hdbd : (mkTokens b).dashBoundaryDash = ([45, 45] ++ b) ++ [45, 45] := by
    rw [mkTokens_dashBoundaryDash]
  have hEmpty : peekBufferIsEmptyPart (mkTokens b) (s.take BLOCK_SIZE) = true := by
    rcases hs with hs1 | hs2 | hs3
    · have h1 : ¬ (mkTokens b).dashBoundaryDash <+: s.take BLOCK_SIZE := by
        intro hcon
        have h2 : (mkTokens b).dashBoundaryDash <+: s :=
          hcon.trans (List.take_prefix _ _)
        rw [hdbd, hs1, mkTokens_nl, hdb] at h2
        simp only [List.append_assoc] at h2
        rw [List.prefix_append_right_inj] at h2
        simp [List.cons_prefix_cons] at h2
      have h1b : (mkTokens b).dashBoundaryDash.isPrefixOf (s.take BLOCK_SIZE) = false := by
        rw [← Bool.not_eq_true, List.isPrefixOf_iff_prefix]
        exact h1
      have h2 : (mkTokens b).dashBoundary.isPrefixOf (s.take BLOCK_SIZE) = true := by
        rw [List.isPrefixOf_iff_prefix]
        apply prefix_take_of_prefix
        · rw [hdb, hs1, hdb, List.append_assoc]
          exact List.prefix_append _ _
        · rw [hdb]
          simp only [List.length_append, List.length_cons, List.length_nil]
          omega
      have h3 : (mkTokens b).nl.isPrefixOf
          (skipLWSPChar ((s.take BLOCK_SIZE).drop (mkTokens b).dashBoundary.length)) = true := by
        rw [skipLWSPChar_eq_self, List.isPrefixOf_iff_prefix, List.drop_take]
        rw [hs1, hdb, mkTokens_nl, List.append_assoc, List.drop_left]
        apply prefix_take_of_prefix (List.prefix_append _ _)
        simp only [List.length_append, List.length_cons, List.length_nil]
        omega
      simp [peekBufferIsEmptyPart, h1b, h2, h3]
    · have h1 : (mkTokens b).dashBoundaryDash.isPrefixOf (s.take BLOCK_SIZE) = true := by
        rw [List.isPrefixOf_iff_prefix]
        apply prefix_take_of_prefix
        · rw [hs2, List.append_assoc]
          exact List.prefix_append _ _
        · rw [hdbd]
          simp only [List.length_append, List.length_cons, List.length_nil]
          omega
      have h3 : (mkTokens b).nl.isPrefixOf
          (skipLWSPChar ((s.take BLOCK_SIZE).drop (mkTokens b).dashBoundaryDash.length)) = true := by
        rw [skipLWSPChar_eq_self, List.isPrefixOf_iff_prefix, List.drop_take]
        rw [hs2, mkTokens_nl, List.append_assoc, List.drop_left]
        apply prefix_take_of_prefix (List.prefix_append _ _)
        rw [hdbd]
        simp only [List.length_append, List.length_cons, List.length_nil]
        omega
      simp [peekBufferIsEmptyPart, h1, h3]
    · have hlen : (mkTokens b).dashBoundaryDash.length ≤ BLOCK_SIZE := by
        rw [hdbd]
        simp only [List.length_append, List.length_cons, List.length_nil]
        omega
      have htk : s.take BLOCK_SIZE = (mkTokens b).dashBoundaryDash := by
        rw [hs3]
        exact List.take_of_length_le hlen
      have h1 : (mkTokens b).dashBoundaryDash.isPrefixOf (s.take BLOCK_SIZE) = true := by
        rw [List.isPrefixOf_iff_prefix, htk]
      have h4 : (s.take BLOCK_SIZE).drop (mkTokens b).dashBoundaryDash.length = [] := by
        rw [htk, List.drop_length]
      simp [peekBufferIsEmptyPart, h1, h4, skipLWSPChar]
  have hread : partReaderRead (mkTokens b) BLOCK_SIZE (freshPart s) = ([], freshPart s) := by
    unfold partReaderRead
    rw [if_neg (by simp [freshPart, BLOCK_SIZE]), if_pos ⟨rfl, hEmpty⟩]
  have hdrain : drainAll (mkTokens b) (freshPart s) = ([], freshPart s) := by
    unfold drainAll
    have hμ : PS.measure (freshPart s) + 1 = s.length + 1 := by
      simp [PS.measure, freshPart]
    rw [hμ, drainGo, hread]
    simp
  simp [Part.read, freshPart, drainAll] at hdrain ⊢
  simpa [freshPart] using hdrain

/-- Byte source beginning directly with the delimiter line `--XYZ\r\n`
(the empty-body situation right after a header block). -/
def sEmptyW : List Nat := [45, 45, 88, 89, 90, 13, 10]

/-- Witness for C7 at a concrete input. -/
theorem emptyBody_read_returns_nothing_witness :
    (bXYZ.length + 6 ≤ BLOCK_SIZE) ∧
    Part.read (mkTokens bXYZ) (freshPart sEmptyW) none = .ok ([], freshPart sEmptyW) :=
  ⟨by decide,
   emptyBody_read_returns_nothing bXYZ sEmptyW [] (by decide) (Or.inl (by decide))⟩

/-! ### Chunk-size independence (C8) -/

/-- `scanMove` on the not-found branch with a window not longer than
the token (the near-end-of-stream cases). -/
theorem scanMove_of_short {tk : Tokens} {s : List Nat}
    (h : findSub tk.dashBoundary (s.take BLOCK_SIZE) = none)
    (hlen : ¬ tk.dashBoundary.length < (s.take BLOCK_SIZE).length) :
    scanMove tk s =
      if (s.take BLOCK_SIZE).length = tk.dashBoundary.length
      then (s.take BLOCK_SIZE).length else 0 := by
  simp only [scanMove, h]
  rw [if_neg hlen]

/-- The scan never moves more than the peeked window. -/
theorem scanMove_le (tk : Tokens) (s : List Nat) :
    scanMove tk s ≤ (s.take BLOCK_SIZE).length := by
  cases h : findSub tk.dashBoundary (s.take BLOCK_SIZE) with
  | some i =>
      rw [scanMove_of_found h]
      exact findSub_le_length h
  | none =>
      by_cases h1 : tk.dashBoundary.length < (s.take BLOCK_SIZE).length
      · rw [scanMove_of_not_found h h1]
        omega
      · rw [scanMove_of_short h h1]
        by_cases h2 : (s.take BLOCK_SIZE).length = tk.dashBoundary.length
        · rw [if_pos h2]
        · rw [if_neg h2]
          omega

/-- `_PartReader.read` when the residual buffer already holds enough
bytes: slice from the buffer, not touching the stream or the counter. -/
theorem partReaderRead_buffer (tk : Tokens) (d : Nat) (st : PS)
    (hd : d ≤ st.buf.length) :
    partReaderRead tk d st = (st.buf.take d, { st with buf := st.buf.drop d }) := by
  unfold partReaderRead
  rw [if_pos hd]

/-- `_PartReader.read` on an empty buffer when the empty-part special
case does not fire: the scan path, moving `scanMove` bytes. -/
theorem partReaderRead_scan (tk : Tokens) (d : Nat) (s : List Nat) (br : Nat) (c : Bool)
    (hd : 1 ≤ d)
    (hbr : br = 0 → peekBufferIsEmptyPart tk (s.take BLOCK_SIZE) = false) :
    partReaderRead tk d ⟨[], s, br, c⟩ =
      ((s.take (scanMove tk s)).take d,
       ⟨(s.take (scanMove tk s)).drop d, s.drop (scanMove tk s),
        br + ((s.take (scanMove tk s)).take d).length, c⟩) := by
  unfold partReaderRead
  rw [if_neg (by simp; omega)]
  rw [if_neg ?hneg]
  case hneg =>
    rintro ⟨h0, hp⟩
    rw [hbr h0] at hp
    exact absurd hp (by simp)
  simp only [List.nil_append]

/-- `Part.read` with an explicit length on a part that is not closed. -/
theorem part_read_some_not_closed (tk : Tokens) (st : PS) (d : Nat)
    (h : st.closed = false) :
    Part.read tk st (some d) = .ok (partReaderRead tk d st) := by
  simp [Part.read, h]

/-- Reference extraction loop: the body bytes produced scan by scan
from an empty-buffer state (used to relate the two reading patterns of
C8). -/
def bodyGo (tk : Tokens) : Nat → List Nat → List Nat
  | 0, _ => []
  | f + 1, s =>
      if s.take (scanMove tk s) = [] then []
      else s.take (scanMove tk s) ++ bodyGo tk f (s.drop (scanMove tk s))

/-- The whole body of a part starting at stream `s` (empty when the
empty-part special case fires on the first read). -/
def partBody (tk : Tokens) (s : List Nat) : List Nat :=
  if peekBufferIsEmptyPart tk (s.take BLOCK_SIZE) then []
  else bodyGo tk (s.length + 1) s

/-- `bodyGo` does not depend on its bound once the bound exceeds the
stream length. -/
theorem bodyGo_fuel (tk : Tokens) : ∀ (n : Nat) (s : List Nat), s.length ≤ n →
    ∀ f1 f2, s.length + 1 ≤ f1 → s.length + 1 ≤ f2 →
      bodyGo tk f1 s = bodyGo tk f2 s := by
  intro n
  induction n with
  | zero =>
      intro s hs f1 f2 h1 h2
      have hnil : s = [] := List.length_eq_zero.mp (by omega)
      obtain ⟨g1, rfl⟩ : ∃ g, f1 = g + 1 := ⟨f1 - 1, by omega⟩
      obtain ⟨g2, rfl⟩ : ∃ g, f2 = g + 1 := ⟨f2 - 1, by omega⟩
      subst hnil
      simp [bodyGo]
  | succ n ih =>
      intro s hs f1 f2 h1 h2
      obtain ⟨g1, rfl⟩ : ∃ g, f1 = g + 1 := ⟨f1 - 1, by omega⟩
      obtain ⟨g2, rfl⟩ : ∃ g, f2 = g + 1 := ⟨f2 - 1, by omega⟩
      simp only [bodyGo]
      by_cases hc : s.take (scanMove tk s) = []
      · rw [if_pos hc, if_pos hc]
      · rw [if_neg hc, if_neg hc]
        congr 1
        have hk : scanMove tk s ≠ 0 ∧ s ≠ [] := by
          rw [List.take_eq_nil_iff] at hc
          tauto
        have hne : s.length ≠ 0 := by
          intro h0
          exact hk.2 (List.length_eq_zero.mp h0)
        have hk1 : 1 ≤ scanMove tk s := by omega
        have hlen : (s.drop (scanMove tk s)).length ≤ n := by
          rw [List.length_drop]
          omega
        exact ih _ hlen g1 g2 (by rw [List.length_drop]; omega)
          (by rw [List.length_drop]; omega)

/-- The `read()` drain loop started on an empty buffer produces exactly
the scan-by-scan body bytes, provided the empty-part special case
cannot fire. -/
theorem drainGo_eq_bodyGo (tk : Tokens) : ∀ (n : Nat) (s : List Nat), s.length ≤ n →
    ∀ (br : Nat) (c : Bool) (f : Nat),
      (br = 0 → peekBufferIsEmptyPart tk (s.take BLOCK_SIZE) = false) →
      s.length + 1 ≤ f →
      (drainGo tk f ⟨[], s, br, c⟩).1 = bodyGo tk (s.length + 1) s := by
  intro n
  induction n with
  | zero =>
      intro s hs br c f hbr hf
      have hnil : s = [] := List.length_eq_zero.mp (by omega)
      subst hnil
      obtain ⟨g, rfl⟩ : ∃ g, f = g + 1 := ⟨f - 1, by omega⟩
      rw [drainGo, partReaderRead_scan tk BLOCK_SIZE [] br c (by simp [BLOCK_SIZE]) hbr]
      simp [bodyGo]
  | succ n ih =>
      intro s hs br c f hbr hf
      obtain ⟨g, rfl⟩ : ∃ g, f = g + 1 := ⟨f - 1, by omega⟩
      rw [drainGo, partReaderRead_scan tk BLOCK_SIZE s br c (by simp [BLOCK_SIZE]) hbr]
      have hkB : (s.take (scanMove tk s)).length ≤ BLOCK_SIZE := by
        have h1 := scanMove_le tk s
        have h2 := List.length_take_le (scanMove tk s) s
        have h3 := List.length_take_le BLOCK_SIZE s
        have h4 : (s.take BLOCK_SIZE).length ≤ BLOCK_SIZE := List.length_take_le _ _
        omega
      have hchunk : (s.take (scanMove tk s)).take BLOCK_SIZE = s.take (scanMove tk s) :=
        List.take_of_length_le hkB
      have hdropB : (s.take (scanMove tk s)).drop BLOCK_SIZE = [] :=
        List.drop_eq_nil_of_le hkB
      simp only [hchunk, hdropB]
      by_cases hc : s.take (scanMove tk s) = []
      · rw [bodyGo, if_pos hc]
        simp [hc]
      · have hbody : bodyGo tk (s.length + 1) s =
            s.take (scanMove tk s) ++ bodyGo tk s.length (s.drop (scanMove tk s)) := by
          rw [bodyGo, if_neg hc]
        have hk : scanMove tk s ≠ 0 ∧ s ≠ [] := by
          rw [List.take_eq_nil_iff] at hc
          tauto
        have hne : s.length ≠ 0 := by
          intro h0
          exact hk.2 (List.length_eq_zero.mp h0)
        have hk1 : 1 ≤ scanMove tk s := by
          have := hk.1
          omega
        have hlen2 : (s.drop (scanMove tk s)).length ≤ n := by
          rw [List.length_drop]
          omega
      -- the loop recurses with the new, shorter state; its counter is nonzero
        have hbr2 : br + (s.take (scanMove tk s)).length ≠ 0 := by
          have : (s.take (scanMove tk s)).length ≠ 0 := by
            intro h0
            exact hc (List.length_eq_zero.mp h0)
          omega
        rw [if_neg hc]
        simp only []
        rw [hbody]
        have hrec := ih (s.drop (scanMove tk s)) hlen2
          (br + (s.take (scanMove tk s)).length) c g
          (fun h0 => absurd h0 hbr2)
          (by rw [List.length_drop]; omega)
        rw [hrec]
        congr 1
        exact bodyGo_fuel tk n _ hlen2 ((s.drop (scanMove tk s)).length + 1) s.length
          (Nat.le_refl _) (by rw [List.length_drop]; omega)

/-- While the residual buffer is nonempty, each `read(1)` call just pops
one buffered byte (and, by the C9 bug, does not move the counter), so
the 1-byte loop first emits the whole buffer. -/
theorem onesGo_buffer (tk : Tokens) : ∀ (bf : List Nat) (f : Nat) (s : List Nat) (br : Nat),
    onesGo tk (bf.length + f) ⟨bf, s, br, false⟩ =
      (onesGo tk f ⟨[], s, br, false⟩).map (fun x => (bf ++ x.1, x.2)) := by
  intro bf
  induction bf with
  | nil =>
      intro f s br
      simp only [List.length_nil, Nat.zero_add]
      cases h : onesGo tk f ⟨[], s, br, false⟩ with
      | error e => simp [Except.map, h]
      | ok v => simp [Except.map, h]
  | cons x bf ih =>
      intro f s br
      have hlen : (x :: bf).length + f = (bf.length + f) + 1 := by
        simp only [List.length_cons]
        omega
      rw [hlen, onesGo, part_read_some_not_closed tk _ 1 rfl,
        partReaderRead_buffer tk 1 _ (by simp)]
      simp only [List.take_cons, List.take_zero, List.drop_succ_cons, List.drop_zero]
      rw [if_neg (by simp)]
      rw [ih f s br]
      cases h : onesGo tk f ⟨[], s, br, false⟩ with
      | error e => simp [Except.map, h]
      | ok v => simp [Except.map, h]

/-- The `read(1)` loop started on an empty buffer produces exactly the
scan-by-scan body bytes, provided the empty-part special case cannot
fire. -/
theorem onesGo_eq_bodyGo (tk : Tokens) : ∀ (n : Nat) (s : List Nat), s.length ≤ n →
    ∀ (br : Nat) (f : Nat),
      (br = 0 → peekBufferIsEmptyPart tk (s.take BLOCK_SIZE) = false) →
      s.length + 1 ≤ f →
      ∃ stE, onesGo tk f ⟨[], s, br, false⟩ = .ok (bodyGo tk (s.length + 1) s, stE) := by
  intro n
  induction n with
  | zero =>
      intro s hs br f hbr hf
      have hnil : s = [] := List.length_eq_zero.mp (by omega)
      subst hnil
      obtain ⟨g, rfl⟩ : ∃ g, f = g + 1 := ⟨f - 1, by omega⟩
      rw [onesGo, part_read_some_not_closed tk _ 1 rfl,
        partReaderRead_scan tk 1 [] br false (Nat.le_refl 1) hbr]
      simp [bodyGo]
  | succ n ih =>
      intro s hs br f hbr hf
      obtain ⟨g, rfl⟩ : ∃ g, f = g + 1 := ⟨f - 1, by omega⟩
      rw [onesGo, part_read_some_not_closed tk _ 1 rfl,
        partReaderRead_scan tk 1 s br false (Nat.le_refl 1) hbr]
      by_cases hc : s.take (scanMove tk s) = []
      · rw [bodyGo, if_pos hc]
        simp [hc]
      · obtain ⟨hd, tl, htl⟩ : ∃ hd tl, s.take (scanMove tk s) = hd :: tl := by
          cases hx : s.take (scanMove tk s) with
          | nil => exact absurd hx hc
          | cons a l => exact ⟨a, l, rfl⟩
        have hk : scanMove tk s ≠ 0 ∧ s ≠ [] := by
          rw [List.take_eq_nil_iff] at hc
          tauto
        have hne : s.length ≠ 0 := by
          intro h0
          exact hk.2 (List.length_eq_zero.mp h0)
        have hk1 : 1 ≤ scanMove tk s := by
          have := hk.1
          omega
        have htllen : tl.length + 1 = (s.take (scanMove tk s)).length := by
          rw [htl]
          simp
        have htake_le : (s.take (scanMove tk s)).length ≤ s.length :=
          List.length_take_le' (scanMove tk s) s
        have htake_lek : (s.take (scanMove tk s)).length ≤ scanMove tk s :=
          List.length_take_le _ _
        rw [htl]
        have h1take : List.take 1 (hd :: tl) = [hd] := rfl
        have h1drop : List.drop 1 (hd :: tl) = tl := rfl
        simp only [h1take, h1drop, List.length_cons, List.length_nil, Nat.zero_add]
        rw [if_neg (by simp)]
        -- split the remaining bound: first drain `tl`, then recurse
        obtain ⟨g2, hg2⟩ : ∃ g2, g = tl.length + g2 := ⟨g - tl.length, by omega⟩
        have hg2ge : (s.drop (scanMove tk s)).length + 1 ≤ g2 := by
          rw [List.length_drop]
          omega
        have hlen2 : (s.drop (scanMove tk s)).length ≤ n := by
          rw [List.length_drop]
          omega
        have hbr2 : br + 1 ≠ 0 := by omega
        obtain ⟨stE, hrec⟩ := ih (s.drop (scanMove tk s)) hlen2 (br + 1) g2
          (fun h0 => absurd h0 hbr2) hg2ge
        rw [hg2, onesGo_buffer tk tl g2 (s.drop (scanMove tk s)) (br + 1), hrec]
        refine ⟨stE, ?_⟩
        simp only [Except.map]
        have hbody : bodyGo tk (s.length + 1) s =
            s.take (scanMove tk s) ++ bodyGo tk s.length (s.drop (scanMove tk s)) := by
          rw [bodyGo, if_neg hc]
        rw [hbody, htl]
        have hfuel : bodyGo tk ((s.drop (scanMove tk s)).length + 1) (s.drop (scanMove tk s)) =
            bodyGo tk s.length (s.drop (scanMove tk s)) :=
          bodyGo_fuel tk n _ hlen2 _ s.length (Nat.le_refl _)
            (by rw [List.length_drop]; omega)
        rw [hfuel]
        simp

/-- `read()` with no length on a fresh part returns exactly `partBody`. -/
theorem drainAll_fresh (tk : Tokens) (s : List Nat) :
    (drainAll tk (freshPart s)).1 = partBody tk s := by
  unfold drainAll
  have hμ : PS.measure (freshPart s) + 1 = s.length + 1 := by
    simp [PS.measure, freshPart]
  rw [hμ]
  by_cases hEmpty : peekBufferIsEmptyPart tk (s.take BLOCK_SIZE) = true
  · rw [partBody, if_pos hEmpty, drainGo]
    have hread : partReaderRead tk BLOCK_SIZE (freshPart s) = ([], freshPart s) := by
      unfold partReaderRead
      rw [if_neg (by simp [freshPart, BLOCK_SIZE]), if_pos ⟨rfl, hEmpty⟩]
    rw [hread]
    simp
  · rw [partBody, if_neg hEmpty]
    have hEmptyF : peekBufferIsEmptyPart tk (s.take BLOCK_SIZE) = false := by
      simpa using hEmpty
    exact drainGo_eq_bodyGo tk s.length s (Nat.le_refl _) 0 false (s.length + 1)
      (fun _ => hEmptyF) (Nat.le_refl _)

/-- The `read(1)` loop on a fresh part returns exactly `partBody`. -/
theorem onesAll_fresh (tk : Tokens) (s : List Nat) :
    ∃ stE, onesAll tk (freshPart s) = .ok (partBody tk s, stE) := by
  unfold onesAll
  have hμ : PS.measure (freshPart s) + 1 = s.length + 1 := by
    simp [PS.measure, freshPart]
  rw [hμ]
  by_cases hEmpty : peekBufferIsEmptyPart tk (s.take BLOCK_SIZE) = true
  · rw [partBody, if_pos hEmpty, onesGo]
    have hread : partReaderRead tk 1 (freshPart s) = ([], freshPart s) := by
      unfold partReaderRead
      rw [if_neg (by simp [freshPart]), if_pos ⟨rfl, hEmpty⟩]
    rw [part_read_some_not_closed tk _ 1 rfl, hread]
    exact ⟨freshPart s, by simp⟩
  · rw [partBody, if_neg hEmpty]
    have hEmptyF : peekBufferIsEmptyPart tk (s.take BLOCK_SIZE) = false := by
      simpa using hEmpty
    exact onesGo_eq_bodyGo tk s.length s (Nat.le_refl _) 0 (s.length + 1)
      (fun _ => hEmptyF) (Nat.le_refl _)

/-- C8: chunk-size independence.  For every tokens value and every part
body stream, reading a fresh part by repeated `read(1)` calls until an
empty chunk and reading it by one drain `read()` produce the same
concatenated byte sequence. -/
theorem read_one_loop_eq_bulk_read (tk : Tokens) (s : List Nat) :
    (onesAll tk (freshPart s)).map Prod.fst =
      (Part.read tk (freshPart s) none).map Prod.fst := by
  obtain ⟨stE, h⟩ := onesAll_fresh tk s
  rw [h]
  have hr : Part.read tk (freshPart s) none = .ok (drainAll tk (freshPart s)) := by
    simp [Part.read, freshPart]
  rw [hr]
  simp [Except.map, drainAll_fresh]

/-! ### The loop bounds of the `...All` wrappers are sufficient -/

/-- Each `_PartReader.read` call conserves buffered-plus-unread bytes:
what it returns leaves the combined measure by exactly that amount. -/
theorem partReaderRead_measure (tk : Tokens) (d : Nat) (st : PS) :
    (partReaderRead tk d st).2.measure + (partReaderRead tk d st).1.length =
      st.measure := by
  unfold partReaderRead PS.measure
  by_cases h1 : d ≤ st.buf.length
  · rw [if_pos h1]
    simp only [List.length_drop, List.length_take]
    omega
  · rw [if_neg h1]
    by_cases h2 : st.bytesRead = 0 ∧ peekBufferIsEmptyPart tk (st.stream.take BLOCK_SIZE)
    · rw [if_pos h2]
      simp
    · rw [if_neg h2]
      simp only [List.length_drop, List.length_take, List.length_append]
      omega

/-- A drain chunk is bounded by the state's measure. -/
theorem partReaderRead_measure_lt (tk : Tokens) (d : Nat) (st : PS)
    (h : (partReaderRead tk d st).1 ≠ []) :
    (partReaderRead tk d st).2.measure < st.measure := by
  have hm := partReaderRead_measure tk d st
  have hlen : (partReaderRead tk d st).1.length ≠ 0 := by
    intro h0
    exact h (List.length_eq_zero.mp h0)
  omega

/-- Any bound above the measure gives `drainGo` the same result: the
bound used by `drainAll` models the unbounded source loop exactly. -/
theorem drainGo_fuel_sufficient (tk : Tokens) : ∀ (n : Nat) (st : PS), st.measure ≤ n →
    ∀ f1 f2, st.measure + 1 ≤ f1 → st.measure + 1 ≤ f2 →
      drainGo tk f1 st = drainGo tk f2 st := by
  intro n
  induction n with
  | zero =>
      intro st hst f1 f2 h1 h2
      obtain ⟨g1, rfl⟩ : ∃ g, f1 = g + 1 := ⟨f1 - 1, by omega⟩
      obtain ⟨g2, rfl⟩ : ∃ g, f2 = g + 1 := ⟨f2 - 1, by omega⟩
      rw [drainGo, drainGo]
      by_cases hc : (partReaderRead tk BLOCK_SIZE st).1 = []
      · rw [if_pos hc, if_pos hc]
      · exact absurd (partReaderRead_measure_lt tk BLOCK_SIZE st hc) (by omega)
  | succ n ih =>
      intro st hst f1 f2 h1 h2
      obtain ⟨g1, rfl⟩ : ∃ g, f1 = g + 1 := ⟨f1 - 1, by omega⟩
      obtain ⟨g2, rfl⟩ : ∃ g, f2 = g + 1 := ⟨f2 - 1, by omega⟩
      rw [drainGo, drainGo]
      by_cases hc : (partReaderRead tk BLOCK_SIZE st).1 = []
      · rw [if_pos hc, if_pos hc]
      · rw [if_neg hc, if_neg hc]
        have hlt := partReaderRead_measure_lt tk BLOCK_SIZE st hc
        rw [ih (partReaderRead tk BLOCK_SIZE st).2 (by omega) g1 g2 (by omega) (by omega)]

/-- Any bound above the measure gives `closeGo` the same result: the
bound used by `Part.close` models the unbounded source loop exactly. -/
theorem closeGo_fuel_sufficient (tk : Tokens) : ∀ (n : Nat) (st : PS), st.measure ≤ n →
    ∀ f1 f2, st.measure + 1 ≤ f1 → st.measure + 1 ≤ f2 →
      closeGo tk f1 st = closeGo tk f2 st := by
  intro n
  induction n with
  | zero =>
      intro st hst f1 f2 h1 h2
      obtain ⟨g1, rfl⟩ : ∃ g, f1 = g + 1 := ⟨f1 - 1, by omega⟩
      obtain ⟨g2, rfl⟩ : ∃ g, f2 = g + 1 := ⟨f2 - 1, by omega⟩
      rw [closeGo, closeGo]
      cases hr : Part.read tk st (some BLOCK_SIZE) with
      | error e => rfl
      | ok v =>
          obtain ⟨chunk, st1⟩ := v
          have hv : (chunk, st1) = partReaderRead tk BLOCK_SIZE st := by
            cases hcl : st.closed with
            | true => simp [Part.read, hcl] at hr
            | false =>
                rw [part_read_some_not_closed tk st _ hcl] at hr
                exact (Except.ok.inj hr).symm
          dsimp only []
          by_cases hc : chunk = []
          · rw [if_pos hc, if_pos hc]
          · have hc2 : (partReaderRead tk BLOCK_SIZE st).1 ≠ [] := by
              rw [← hv]
              exact hc
            exact absurd (partReaderRead_measure_lt tk BLOCK_SIZE st hc2) (by omega)
  | succ n ih =>
      intro st hst f1 f2 h1 h2
      obtain ⟨g1, rfl⟩ : ∃ g, f1 = g + 1 := ⟨f1 - 1, by omega⟩
      obtain ⟨g2, rfl⟩ : ∃ g, f2 = g + 1 := ⟨f2 - 1, by omega⟩
      rw [closeGo, closeGo]
      cases hr : Part.read tk st (some BLOCK_SIZE) with
      | error e => rfl
      | ok v =>
          obtain ⟨chunk, st1⟩ := v
          have hv : (chunk, st1) = partReaderRead tk BLOCK_SIZE st := by
            cases hcl : st.closed with
            | true => simp [Part.read, hcl] at hr
            | false =>
                rw [part_read_some_not_closed tk st _ hcl] at hr
                exact (Except.ok.inj hr).symm
          dsimp only []
          by_cases hc : chunk = []
          · rw [if_pos hc, if_pos hc]
          · rw [if_neg hc, if_neg hc]
            have hc2 : (partReaderRead tk BLOCK_SIZE st).1 ≠ [] := by
              rw [← hv]
              exact hc
            have hlt := partReaderRead_measure_lt tk BLOCK_SIZE st hc2
            have hst1 : st1.measure < st.measure := by
              have : st1 = (partReaderRead tk BLOCK_SIZE st).2 := by
                rw [← hv]
              rw [this]
              exact hlt
            rw [ih st1 (by omega) g1 g2 (by omega) (by omega)]

/-- Any bound above the measure gives `onesGo` the same result: the
bound used by `onesAll` models the unbounded caller loop exactly. -/
theorem onesGo_fuel_sufficient (tk : Tokens) : ∀ (n : Nat) (st : PS), st.measure ≤ n →
    ∀ f1 f2, st.measure + 1 ≤ f1 → st.measure + 1 ≤ f2 →
      onesGo tk f1 st = onesGo tk f2 st := by
  intro n
  induction n with
  | zero =>
      intro st hst f1 f2 h1 h2
      obtain ⟨g1, rfl⟩ : ∃ g, f1 = g + 1 := ⟨f1 - 1, by omega⟩
      obtain ⟨g2, rfl⟩ : ∃ g, f2 = g + 1 := ⟨f2 - 1, by omega⟩
      rw [onesGo, onesGo]
      cases hr : Part.read tk st (some 1) with
      | error e => rfl
      | ok v =>
          obtain ⟨chunk, st1⟩ := v
          have hv : (chunk, st1) = partReaderRead tk 1 st := by
            cases hcl : st.closed with
            | true => simp [Part.read, hcl] at hr
            | false =>
                rw [part_read_some_not_closed tk st _ hcl] at hr
                exact (Except.ok.inj hr).symm
          dsimp only []
          by_cases hc : chunk = []
          · rw [if_pos hc, if_pos hc]
          · have hc2 : (partReaderRead tk 1 st).1 ≠ [] := by
              rw [← hv]
              exact hc
            exact absurd (partReaderRead_measure_lt tk 1 st hc2) (by omega)
  | succ n ih =>
      intro st hst f1 f2 h1 h2
      obtain ⟨g1, rfl⟩ : ∃ g, f1 = g + 1 := ⟨f1 - 1, by omega⟩
      obtain ⟨g2, rfl⟩ : ∃ g, f2 = g + 1 := ⟨f2 - 1, by omega⟩
      rw [onesGo, onesGo]
      cases hr : Part.read tk st (some 1) with
      | error e => rfl
      | ok v =>
          obtain ⟨chunk, st1⟩ := v
          have hv : (chunk, st1) = partReaderRead tk 1 st := by
            cases hcl : st.closed with
            | true => simp [Part.read, hcl] at hr
            | false =>
                rw [part_read_some_not_closed tk st _ hcl] at hr
                exact (Except.ok.inj hr).symm
          dsimp only []
          by_cases hc : chunk = []
          · rw [if_pos hc, if_pos hc]
          · rw [if_neg hc, if_neg hc]
            have hc2 : (partReaderRead tk 1 st).1 ≠ [] := by
              rw [← hv]
              exact hc
            have hlt := partReaderRead_measure_lt tk 1 st hc2
            have hst1 : st1.measure < st.measure := by
              have heq : st1 = (partReaderRead tk 1 st).2 := by
                rw [← hv]
              rw [heq]
              exact hlt
            rw [ih st1 (by omega) g1 g2 (by omega) (by omega)]

/-- `readline` splits the stream: line plus rest is the stream. -/
theorem readLine_append (s : List Nat) : (readLine s).1 ++ (readLine s).2 = s := by
  induction s with
  | nil => rfl
  | cons c rest ih =>
      by_cases h : c = 10
      · simp [readLine, h]
      · simp [readLine, h, ih]

/-- `readline` returns a nonempty line on a nonempty stream. -/
theorem readLine_ne_nil {s : List Nat} (h : s ≠ []) : (readLine s).1 ≠ [] := by
  cases s with
  | nil => exact absurd rfl h
  | cons c rest =>
      by_cases hc : c = 10 <;> simp [readLine, hc]

/-- Any bound above the stream length gives `headersGo` the same
result: the bound used by `populateHeaders` models the unbounded
header loop exactly. -/
theorem headersGo_fuel_sufficient : ∀ (n : Nat) (s : List Nat), s.length ≤ n →
    ∀ f1 f2, s.length + 1 ≤ f1 → s.length + 1 ≤ f2 →
      headersGo f1 s = headersGo f2 s := by
  intro n
  induction n with
  | zero =>
      intro s hs f1 f2 h1 h2
      have hnil : s = [] := List.length_eq_zero.mp (by omega)
      subst hnil
      obtain ⟨g1, rfl⟩ : ∃ g, f1 = g + 1 := ⟨f1 - 1, by omega⟩
      obtain ⟨g2, rfl⟩ : ∃ g, f2 = g + 1 := ⟨f2 - 1, by omega⟩
      rw [headersGo, headersGo]
      simp [readLine]
  | succ n ih =>
      intro s hs f1 f2 h1 h2
      obtain ⟨g1, rfl⟩ : ∃ g, f1 = g + 1 := ⟨f1 - 1, by omega⟩
      obtain ⟨g2, rfl⟩ : ∃ g, f2 = g + 1 := ⟨f2 - 1, by omega⟩
      rw [headersGo, headersGo]
      by_cases hb : (readLine s).1 = [13, 10] ∨ (readLine s).1 = [10] ∨ (readLine s).1 = []
      · rw [if_pos hb, if_pos hb]
      · rw [if_neg hb, if_neg hb]
        have hsne : s ≠ [] := by
          intro h0
          subst h0
          exact hb (Or.inr (Or.inr rfl))
        have hlne : (readLine s).1 ≠ [] := readLine_ne_nil hsne
        have hlen : (readLine s).1.length + (readLine s).2.length = s.length := by
          rw [← List.length_append, readLine_append]
        have hlpos : (readLine s).1.length ≠ 0 := by
          intro h0
          exact hlne (List.length_eq_zero.mp h0)
        rw [ih (readLine s).2 (by omega) g1 g2 (by omega) (by omega)]
